import Mathlib

set_option autoImplicit false

/-!
Shallow embedding of the spatial cell resolution core of the
waonder-web-map-playground repository.

JavaScript numbers are modeled as rationals (ℚ); H3 cell identifiers are
modeled as the opaque `String` values the h3-js primitive produces; the
h3-js primitive itself (latLngToCell, cellToBoundary, getResolution) is an
external collaborator and is modeled as an abstract record of
`Option`-valued functions, where `none` models the primitive throwing.

Embedded source files:
- src/lib/zoom-resolution-map.ts : `getH3ResolutionForZoom`
- src/lib/h3-utils.ts : `H3CellInfo`, `getH3CellInfo` (with the module
  level `cellCache` map threaded as explicit state), `isValidCoordinate`,
  `clearH3Cache`, `getH3CellsInBounds`.
-/

/-- Embedding of `getH3ResolutionForZoom` from
src/lib/zoom-resolution-map.ts: the literal cascade of
`if (zoom <= t) return r` threshold tests. -/
def getH3ResolutionForZoom (zoom : ℚ) : ℕ :=
  if zoom ≤ 2 then 0
  else if zoom ≤ 4 then 1
  else if zoom ≤ 5 then 2
  else if zoom ≤ 6 then 3
  else if zoom ≤ 7 then 4
  else if zoom ≤ 8 then 5
  else if zoom ≤ 9 then 6
  else if zoom ≤ 10 then 7
  else if zoom ≤ 11 then 8
  else if zoom ≤ 12 then 9
  else if zoom ≤ 13 then 10
  else if zoom ≤ 14 then 11
  else if zoom ≤ 15 then 12
  else if zoom ≤ 16 then 13
  else if zoom ≤ 17 then 14
  else 15

/-- Generic threshold cascade: `resChain ts k z` walks the threshold list
`ts`, returning the running tier `k` at the first threshold at or above
`z` and advancing the tier past each threshold below `z`. The literal
if-chain of `getH3ResolutionForZoom` is definitionally `resChain` applied
to its threshold table (see `getH3ResolutionForZoom_eq_resChain`). -/
def resChain : List ℚ → ℕ → ℚ → ℕ
  | [], k, _ => k
  | t :: ts, k, z => if z ≤ t then k else resChain ts (k + 1) z

/-- Threshold table of `getH3ResolutionForZoom`, in source order. -/
def zoomThresholds : List ℚ :=
  [2, 4, 5, 6, 7, 8, 9, 10, 11, 12, 13, 14, 15, 16, 17]

/-- Embedding of the `H3CellInfo` interface from src/lib/h3-utils.ts. -/
structure H3CellInfo where
  h3Index : String
  resolution : ℕ
  boundary : List (ℚ × ℚ)
deriving DecidableEq, Repr

/-- Abstract model of the external h3-js indexing primitive
(latLngToCell, cellToBoundary, getResolution). A result of `none` models
the primitive throwing on that input; any concrete instance fixes one
deterministic behavior of the library. -/
structure H3Primitive where
  latLngToCell : ℚ → ℚ → ℕ → Option String
  cellToBoundary : String → Option (List (ℚ × ℚ))
  getResolution : String → Option ℕ

/-- Cache keys: the source builds the string
`lat.toFixed(6) + "," + lng.toFixed(6) + "," + resolution`; we model the
6-decimal quantization of each coordinate as an integer of micro-degrees
together with the resolution. -/
def quantize6 (x : ℚ) : ℤ := round (x * 1000000)

abbrev CacheKey := ℤ × ℤ × ℕ

def cacheKeyOf (lat lng : ℚ) (resolution : ℕ) : CacheKey :=
  (quantize6 lat, quantize6 lng, resolution)

/-- Embedding of the module-level `cellCache` JavaScript `Map`: an
association list in insertion order, oldest entry first (a JS `Map`
iterates keys in insertion order, so `keys().next().value` is the oldest
surviving key). -/
abbrev H3Cache := List (CacheKey × H3CellInfo)

/-- Embedding of `MAX_CACHE_SIZE` from src/lib/h3-utils.ts. -/
def MAX_CACHE_SIZE : ℕ := 100

/-- Lookup by exact key, as `cellCache.get` does. -/
def cacheGet : H3Cache → CacheKey → Option H3CellInfo
  | [], _ => none
  | e :: rest, k => if e.1 = k then some e.2 else cacheGet rest k

/-- Error vocabulary of the spec for `resolveCell`. The source never
throws `invalidCoordinate` itself; primitive exceptions propagate and are
what the spec calls `IndexingFailure`. -/
inductive H3Error
  | invalidCoordinate
  | indexingFailure
deriving DecidableEq, Repr

/-- Pure computation part of `getH3CellInfo` on a cache miss, in source
order: `latLngToCell`, then `cellToBoundary`, then `getResolution`; a
throw anywhere (modeled by `none`) aborts the computation before any
cache mutation. -/
def computeCellInfo (prim : H3Primitive) (lat lng : ℚ) (resolution : ℕ) :
    Option H3CellInfo :=
  match prim.latLngToCell lat lng resolution with
  | none => none
  | some h3Index =>
    match prim.cellToBoundary h3Index with
    | none => none
    | some boundary =>
      match prim.getResolution h3Index with
      | none => none
      | some actualResolution =>
        some ⟨h3Index, actualResolution, boundary⟩

/-- Embedding of `getH3CellInfo` from src/lib/h3-utils.ts with the module
level cache threaded as explicit state. Mirrors the source exactly: build
the quantized cache key; on a cache hit return the stored value with the
cache unchanged; on a miss run the primitive calls (errors propagate with
the cache untouched), then, if the cache is at `MAX_CACHE_SIZE`, delete
the first (oldest) key, and finally insert the new entry at the end. -/
def getH3CellInfo (prim : H3Primitive) (cache : H3Cache)
    (lat lng : ℚ) (resolution : ℕ) :
    Except H3Error H3CellInfo × H3Cache :=
  let cacheKey := cacheKeyOf lat lng resolution
  match cacheGet cache cacheKey with
  | some v => (Except.ok v, cache)
  | none =>
    match computeCellInfo prim lat lng resolution with
    | none => (Except.error H3Error.indexingFailure, cache)
    | some result =>
      let evicted := if MAX_CACHE_SIZE ≤ cache.length then cache.tail else cache
      (Except.ok result, evicted ++ [(cacheKey, result)])

/-- Embedding of `isValidCoordinate` from src/lib/h3-utils.ts. -/
def isValidCoordinate (lat lng : ℚ) : Bool :=
  lat ≥ -90 && lat ≤ 90 && lng ≥ -180 && lng ≤ 180

/-- Embedding of `clearH3Cache` from src/lib/h3-utils.ts: resets the
module-level cache to empty. -/
def clearH3Cache (_cache : H3Cache) : H3Cache := []

/-- Concrete totally-succeeding instance of the indexing primitive, used
by witnesses: every point resolves to the cell named a, with an empty
boundary ring and resolution 0. -/
def primTotal : H3Primitive where
  latLngToCell := fun _ _ _ => some ("a")
  cellToBoundary := fun _ => some []
  getResolution := fun _ => some 0

/-- Variant of `primTotal` resolving every point to the cell named b;
used to show that a result depends on the primitive, i.e. that the
primitive was actually consulted. -/
def primTotalB : H3Primitive where
  latLngToCell := fun _ _ _ => some ("b")
  cellToBoundary := fun _ => some []
  getResolution := fun _ => some 0

/-- Concrete always-throwing instance of the indexing primitive, used by
witnesses for the error paths. -/
def primFail : H3Primitive where
  latLngToCell := fun _ _ _ => none
  cellToBoundary := fun _ => none
  getResolution := fun _ => none

/-- Cell record produced by `primTotal` for every input. -/
def cellA : H3CellInfo := ⟨("a"), 0, []⟩

/-- Cache key of one (lat, lng, resolution) call triple. -/
def keyOfInput (i : ℚ × ℚ × ℕ) : CacheKey := cacheKeyOf i.1 i.2.1 i.2.2

/-- Fold a sequence of `getH3CellInfo` calls over the module cache state,
keeping only the final cache. -/
def runCalls (prim : H3Primitive) (cache : H3Cache)
    (inputs : List (ℚ × ℚ × ℕ)) : H3Cache :=
  inputs.foldl (fun st i => (getH3CellInfo prim st i.1 i.2.1 i.2.2).2) cache

/-- Concrete full cache used by the C3 witness: `MAX_CACHE_SIZE` entries
whose keys all have third component 1, so they collide with no quantized
key of resolution 5. -/
def cacheW : H3Cache :=
  (List.range MAX_CACHE_SIZE).map (fun (n : ℕ) => (((n : ℤ), 0, 1), cellA))

/-- Concrete insertion sequence for the C3 witness: `MAX_CACHE_SIZE + 1`
calls at the origin with pairwise distinct resolutions, hence pairwise
distinct cache keys. -/
def inputsW : List (ℚ × ℚ × ℕ) :=
  (List.range (MAX_CACHE_SIZE + 1)).map (fun n => (0, 0, n))

/-- Embedding of the `bounds` parameter of `getH3CellsInBounds`. -/
structure Bounds where
  north : ℚ
  south : ℚ
  east : ℚ
  west : ℚ

/-- Embedding of the step count of `getH3CellsInBounds`:
`Math.min(50, Math.max(10, Math.pow(2, resolution)))`. -/
def stepsFor (resolution : ℕ) : ℕ := min 50 (max 10 (2 ^ resolution))

/-- Operational model of one `for (x = start; x <= upper; x += step)`
header: `sampleLoop upper step fuel start` returns `some` of the list of
loop-variable values when the loop exits within `fuel` iterations and
`none` otherwise, so that divergence of the source loop is exactly
`∀ fuel, sampleLoop … = none`. -/
def sampleLoop (upper step : ℚ) : ℕ → ℚ → Option (List ℚ)
  | 0, _ => none
  | fuel + 1, x =>
    if x ≤ upper then (sampleLoop upper step fuel (x + step)).map (fun l => x :: l)
    else some []

/-- Loop body of `getH3CellsInBounds` over the flattened sample sequence,
carrying the `seenCells` set (as a list) exactly as the source does: a
`latLngToCell` throw skips the sample (the `catch`); an already-seen
index is skipped; otherwise the index is added to `seenCells` BEFORE
`cellToBoundary`/`getResolution` run, and if either of those throws the
sample is skipped with the index left in `seenCells`. The second
component of the result is the trace of identifiers on which
`cellToBoundary` was invoked, used to state that no boundary is ever
recomputed. -/
def processSamples (prim : H3Primitive) (resolution : ℕ) :
    List (ℚ × ℚ) → List String → List H3CellInfo × List String
  | [], _ => ([], [])
  | sample :: rest, seen =>
    match prim.latLngToCell sample.1 sample.2 resolution with
    | none => processSamples prim resolution rest seen
    | some h3Index =>
      if h3Index ∈ seen then processSamples prim resolution rest seen
      else
        match prim.cellToBoundary h3Index with
        | none =>
          let r := processSamples prim resolution rest (h3Index :: seen)
          (r.1, h3Index :: r.2)
        | some boundary =>
          match prim.getResolution h3Index with
          | none =>
            let r := processSamples prim resolution rest (h3Index :: seen)
            (r.1, h3Index :: r.2)
          | some actualResolution =>
            let r := processSamples prim resolution rest (h3Index :: seen)
            (⟨h3Index, actualResolution, boundary⟩ :: r.1, h3Index :: r.2)

/-- Embedding of `getH3CellsInBounds` from src/lib/h3-utils.ts. The two
nested `for` loops have loop-invariant bounds and steps, so the executed
sample sequence is the flattening of the outer (latitude) value list with
the inner (longitude) value list; `fuel` bounds the iterations of each
loop header, and the result is `none` exactly when the source function
fails to terminate within that fuel: the outer loop runs (and must
terminate) unconditionally, while the inner loop runs only if the outer
loop body is entered at least once. -/
def getH3CellsInBounds (prim : H3Primitive) (bounds : Bounds)
    (resolution : ℕ) (fuel : ℕ) : Option (List H3CellInfo) :=
  let steps : ℕ := stepsFor resolution
  let latStep : ℚ := (bounds.north - bounds.south) / steps
  let lngStep : ℚ := (bounds.east - bounds.west) / steps
  match sampleLoop bounds.north latStep fuel bounds.south with
  | none => none
  | some lats =>
    if lats.isEmpty then some []
    else
      match sampleLoop bounds.east lngStep fuel bounds.west with
      | none => none
      | some lngs =>
        some (processSamples prim resolution
          (lats.flatMap (fun la => lngs.map (fun ln => (la, ln)))) []).1

/-- First-winner deduplication, written from the spec's words: a set of
seen identifiers is maintained and the first sample that produces a given
identifier wins and determines output order. Used as the specification
side of the ordering part of the dedup claim. -/
def firstWins (ids : List String) : List String :=
  ids.foldl (fun acc idx => if idx ∈ acc then acc else acc ++ [idx]) []

theorem getH3ResolutionForZoom_eq_resChain (z : ℚ) :
    getH3ResolutionForZoom z = resChain zoomThresholds 0 z := rfl

theorem resChain_le (ts : List ℚ) (k : ℕ) (z : ℚ) :
    resChain ts k z ≤ k + ts.length := by
  induction ts generalizing k with
  | nil => simp [resChain]
  | cons t ts ih =>
    simp only [resChain, List.length_cons]
    split_ifs
    · omega
    · have := ih (k + 1)
      omega

theorem le_resChain (ts : List ℚ) (k : ℕ) (z : ℚ) :
    k ≤ resChain ts k z := by
  induction ts generalizing k with
  | nil => simp [resChain]
  | cons t ts ih =>
    simp only [resChain]
    split_ifs
    · omega
    · have := ih (k + 1)
      omega

theorem resChain_mono (ts : List ℚ) (k : ℕ) {z₁ z₂ : ℚ} (h : z₁ ≤ z₂) :
    resChain ts k z₁ ≤ resChain ts k z₂ := by
  induction ts generalizing k with
  | nil => simp [resChain]
  | cons t ts ih =>
    simp only [resChain]
    rcases le_or_lt z₂ t with h2 | h2
    · rw [if_pos h2, if_pos (le_trans h h2)]
    · rw [if_neg (not_le.mpr h2)]
      rcases le_or_lt z₁ t with h1 | h1
      · rw [if_pos h1]
        exact le_trans (Nat.le_succ k) (le_resChain ts (k + 1) z₂)
      · rw [if_neg (not_le.mpr h1)]
        exact ih (k + 1)

theorem resChain_of_forall_lt (ts : List ℚ) (k : ℕ) (z : ℚ)
    (h : ∀ t ∈ ts, t < z) : resChain ts k z = k + ts.length := by
  induction ts generalizing k with
  | nil => simp [resChain]
  | cons t ts ih =>
    simp only [resChain, List.length_cons]
    rw [if_neg (not_le.mpr (h t (List.mem_cons_self t ts)))]
    rw [ih (k + 1) (fun u hu => h u (List.mem_cons_of_mem t hu))]
    omega

/-- C5: `getH3ResolutionForZoom` is a total function (definitional in this
embedding, and stated here over all rationals, which subsumes all integer
zoom values), is monotonically non-decreasing in zoom, always returns a
value in [0, 15] (the lower bound being automatic in ℕ), and clamps at the
extremes: every zoom at or below the lowest threshold (2) maps to
resolution 0, and every zoom at or above 18 — the least zoom mapped to the
top tier — maps to resolution 15. -/
theorem getH3ResolutionForZoom_monotone_bounded_clamped :
    (∀ z₁ z₂ : ℚ, z₁ ≤ z₂ →
      getH3ResolutionForZoom z₁ ≤ getH3ResolutionForZoom z₂)
    ∧ (∀ z : ℚ, getH3ResolutionForZoom z ≤ 15)
    ∧ (∀ z : ℚ, z ≤ 2 → getH3ResolutionForZoom z = 0)
    ∧ (∀ z : ℚ, 18 ≤ z → getH3ResolutionForZoom z = 15) := by
  refine ⟨?_, ?_, ?_, ?_⟩
  · intro z₁ z₂ h
    rw [getH3ResolutionForZoom_eq_resChain, getH3ResolutionForZoom_eq_resChain]
    exact resChain_mono zoomThresholds 0 h
  · intro z
    have := resChain_le zoomThresholds 0 z
    rw [getH3ResolutionForZoom_eq_resChain]
    simpa [zoomThresholds] using this
  · intro z h
    unfold getH3ResolutionForZoom
    rw [if_pos h]
  · intro z h
    rw [getH3ResolutionForZoom_eq_resChain]
    rw [resChain_of_forall_lt]
    · simp [zoomThresholds]
    · intro t ht
      have ht17 : t ≤ 17 := by
        fin_cases ht <;> norm_num
      linarith

/-- Witness for C5: the clamp and monotonicity facts evaluated at the
concrete zoom levels the spec's own scenarios use (0, 13, 18). -/
theorem getH3ResolutionForZoom_monotone_bounded_clamped_witness :
    getH3ResolutionForZoom 0 ≤ getH3ResolutionForZoom 13
    ∧ getH3ResolutionForZoom 13 ≤ 15
    ∧ getH3ResolutionForZoom 0 = 0
    ∧ getH3ResolutionForZoom 18 = 15 :=
  ⟨getH3ResolutionForZoom_monotone_bounded_clamped.1 0 13 (by norm_num),
   getH3ResolutionForZoom_monotone_bounded_clamped.2.1 13,
   getH3ResolutionForZoom_monotone_bounded_clamped.2.2.1 0 (by norm_num),
   getH3ResolutionForZoom_monotone_bounded_clamped.2.2.2 18 (by norm_num)⟩

theorem cacheGet_eq_none_iff (l : H3Cache) (k : CacheKey) :
    cacheGet l k = none ↔ k ∉ l.map Prod.fst := by
  induction l with
  | nil => simp [cacheGet]
  | cons e rest ih =>
    simp only [cacheGet, List.map_cons, List.mem_cons]
    split_ifs with he
    · simp [he]
    · rw [ih]
      constructor
      · intro hn hor
        rcases hor with h1 | h2
        · exact he h1.symm
        · exact hn h2
      · intro hn h2
        exact hn (Or.inr h2)

theorem cacheGet_tail_eq_none {l : H3Cache} {k : CacheKey}
    (h : cacheGet l k = none) : cacheGet l.tail k = none := by
  cases l with
  | nil => simp [cacheGet]
  | cons e rest =>
    simp only [cacheGet] at h
    split_ifs at h
    simpa using h

theorem cacheGet_append_single {l : H3Cache} {k : CacheKey}
    (h : cacheGet l k = none) (v : H3CellInfo) :
    cacheGet (l ++ [(k, v)]) k = some v := by
  induction l with
  | nil => simp [cacheGet]
  | cons e rest ih =>
    simp only [cacheGet] at h
    split_ifs at h with he
    rw [List.cons_append]
    simp only [cacheGet]
    rw [if_neg he]
    exact ih h

/-- C1 (refuted by the code): `getH3CellInfo` performs no coordinate
validation at all. At the invalid coordinate lat = 200 (which
`isValidCoordinate` itself classifies as invalid), the call does not fail
with any error — in particular not `InvalidCoordinate`; its result is
whatever the indexing primitive returns (two primitives that differ at
this point give different results, so the primitive is consulted); and
the record computed for the invalid coordinate is even inserted into the
cache. This contradicts the spec's requirement that validation happens
before any primitive call with nothing cached. -/
theorem getH3CellInfo_no_coordinate_validation :
    isValidCoordinate 200 0 = false
    ∧ (getH3CellInfo primTotal [] 200 0 5).1 = Except.ok cellA
    ∧ (getH3CellInfo primTotalB [] 200 0 5).1 = Except.ok ⟨("b"), 0, []⟩
    ∧ (getH3CellInfo primTotal [] 200 0 5).2 = [(cacheKeyOf 200 0 5, cellA)] :=
  ⟨rfl, rfl, rfl, rfl⟩

/-- C8: whenever the indexing primitive fails on a cache miss (any of
`latLngToCell`, `cellToBoundary`, `getResolution` throwing, modeled by
`computeCellInfo` returning `none`), `getH3CellInfo` propagates the error
to the caller as an indexing failure and leaves the cache exactly as it
was: nothing is cached on the error path. -/
theorem getH3CellInfo_error_propagates_cache_unchanged
    (prim : H3Primitive) (cache : H3Cache) (lat lng : ℚ) (resolution : ℕ)
    (hmiss : cacheGet cache (cacheKeyOf lat lng resolution) = none)
    (hfail : computeCellInfo prim lat lng resolution = none) :
    getH3CellInfo prim cache lat lng resolution
      = (Except.error H3Error.indexingFailure, cache) := by
  simp only [getH3CellInfo, hmiss, hfail]

/-- Witness for C8: the always-throwing primitive on an empty cache. -/
theorem getH3CellInfo_error_propagates_cache_unchanged_witness :
    getH3CellInfo primFail [] 0 0 0
      = (Except.error H3Error.indexingFailure, []) :=
  getH3CellInfo_error_propagates_cache_unchanged primFail [] 0 0 0 rfl rfl

/-- C9: `getH3CellInfo` is deterministic/idempotent. Starting from any
cache state in which the quantized key of the call is not yet present
(e.g. a fresh or just-reset cache), resolving the same lat/lng/resolution
a second time returns a structurally identical record, both when the
second call is served from the cache (first conjunct) and when it is
recomputed from scratch after a full cache reset (second conjunct). -/
theorem getH3CellInfo_idempotent
    (prim : H3Primitive) (cache : H3Cache) (lat lng : ℚ) (resolution : ℕ)
    (hmiss : cacheGet cache (cacheKeyOf lat lng resolution) = none) :
    ((getH3CellInfo prim (getH3CellInfo prim cache lat lng resolution).2
        lat lng resolution).1
      = (getH3CellInfo prim cache lat lng resolution).1)
    ∧ ((getH3CellInfo prim
          (clearH3Cache (getH3CellInfo prim cache lat lng resolution).2)
          lat lng resolution).1
      = (getH3CellInfo prim cache lat lng resolution).1) := by
  cases hc : computeCellInfo prim lat lng resolution with
  | none =>
    have h1 : getH3CellInfo prim cache lat lng resolution
        = (Except.error H3Error.indexingFailure, cache) := by
      simp only [getH3CellInfo, hmiss, hc]
    rw [h1]
    constructor
    · simp only [getH3CellInfo, hmiss, hc]
    · simp only [clearH3Cache, getH3CellInfo, cacheGet, hc]
  | some r =>
    have h1 : getH3CellInfo prim cache lat lng resolution
        = (Except.ok r,
           (if MAX_CACHE_SIZE ≤ cache.length then cache.tail else cache)
             ++ [(cacheKeyOf lat lng resolution, r)]) := by
      simp only [getH3CellInfo, hmiss, hc]
    have hev : cacheGet
        (if MAX_CACHE_SIZE ≤ cache.length then cache.tail else cache)
        (cacheKeyOf lat lng resolution) = none := by
      split_ifs
      · exact cacheGet_tail_eq_none hmiss
      · exact hmiss
    have h2 : cacheGet
        ((if MAX_CACHE_SIZE ≤ cache.length then cache.tail else cache)
          ++ [(cacheKeyOf lat lng resolution, r)])
        (cacheKeyOf lat lng resolution) = some r :=
      cacheGet_append_single hev r
    rw [h1]
    constructor
    · simp only [getH3CellInfo, h2]
    · simp only [clearH3Cache, getH3CellInfo, cacheGet, hc]

/-- Witness for C9: resolving the origin twice with `primTotal` from the
empty cache gives the same record, with and without a cache reset in
between. -/
theorem getH3CellInfo_idempotent_witness :
    ((getH3CellInfo primTotal (getH3CellInfo primTotal [] 0 0 0).2 0 0 0).1
      = (getH3CellInfo primTotal [] 0 0 0).1)
    ∧ ((getH3CellInfo primTotal
          (clearH3Cache (getH3CellInfo primTotal [] 0 0 0).2) 0 0 0).1
      = (getH3CellInfo primTotal [] 0 0 0).1) :=
  getH3CellInfo_idempotent primTotal [] 0 0 0 rfl

/-- Key invariant of the FIFO cache: after any sequence of successful
calls with pairwise distinct quantized keys, starting from the empty
cache, the surviving cache keys are exactly the most recent
`MAX_CACHE_SIZE` inserted keys, in insertion order. -/
theorem runCalls_keys (prim : H3Primitive) (inputs : List (ℚ × ℚ × ℕ))
    (hnd : (inputs.map keyOfInput).Nodup)
    (hok : ∀ i ∈ inputs, (computeCellInfo prim i.1 i.2.1 i.2.2).isSome) :
    (runCalls prim [] inputs).map Prod.fst
      = (inputs.map keyOfInput).drop (inputs.length - MAX_CACHE_SIZE) := by
  induction inputs using List.reverseRecOn with
  | nil => simp [runCalls]
  | append_singleton inputs i ih =>
    have hnd2 := hnd
    rw [List.map_append, List.nodup_append] at hnd2
    have hok' : ∀ j ∈ inputs, (computeCellInfo prim j.1 j.2.1 j.2.2).isSome :=
      fun j hj => hok j (List.mem_append_left _ hj)
    have hkey_notin : keyOfInput i ∉ inputs.map keyOfInput := by
      intro hmem
      exact hnd2.2.2 hmem (by simp)
    have hstep : runCalls prim [] (inputs ++ [i])
        = (getH3CellInfo prim (runCalls prim [] inputs) i.1 i.2.1 i.2.2).2 := by
      simp [runCalls, List.foldl_append]
    have hkeys := ih hnd2.1 hok'
    have hmiss : cacheGet (runCalls prim [] inputs) (keyOfInput i) = none := by
      rw [cacheGet_eq_none_iff, hkeys]
      intro hmem
      exact hkey_notin (List.drop_subset _ _ hmem)
    obtain ⟨r, hr⟩ :=
      Option.isSome_iff_exists.mp (hok i (List.mem_append_right _ (by simp)))
    have hlen : (runCalls prim [] inputs).length
        = inputs.length - (inputs.length - MAX_CACHE_SIZE) := by
      have hc := congrArg List.length hkeys
      simpa using hc
    have hcall : getH3CellInfo prim (runCalls prim [] inputs) i.1 i.2.1 i.2.2
        = (Except.ok r,
           (if MAX_CACHE_SIZE ≤ (runCalls prim [] inputs).length
            then (runCalls prim [] inputs).tail
            else runCalls prim [] inputs) ++ [(keyOfInput i, r)]) := by
      simp only [getH3CellInfo, keyOfInput] at hmiss ⊢
      simp only [hmiss, hr]
    rw [hstep, hcall]
    have hM : MAX_CACHE_SIZE = 100 := rfl
    have hli : (inputs ++ [i]).length = inputs.length + 1 := by simp
    rcases le_or_lt MAX_CACHE_SIZE inputs.length with hge | hlt
    · have hcond : MAX_CACHE_SIZE ≤ (runCalls prim [] inputs).length := by
        rw [hlen, hM] at *
        omega
      have lhs_eq :
          ((if MAX_CACHE_SIZE ≤ (runCalls prim [] inputs).length
            then (runCalls prim [] inputs).tail
            else runCalls prim [] inputs) ++ [(keyOfInput i, r)]).map Prod.fst
          = (inputs.map keyOfInput).drop (inputs.length - MAX_CACHE_SIZE + 1)
              ++ [keyOfInput i] := by
        rw [if_pos hcond, List.map_append, List.map_tail, hkeys,
          List.tail_drop]
        rfl
      have rhs_eq :
          ((inputs ++ [i]).map keyOfInput).drop
              ((inputs ++ [i]).length - MAX_CACHE_SIZE)
          = (inputs.map keyOfInput).drop (inputs.length + 1 - MAX_CACHE_SIZE)
              ++ [keyOfInput i] := by
        rw [List.map_append, hli,
          List.drop_append_of_le_length
            (by rw [List.length_map, hM] at *; omega)]
        rfl
      rw [lhs_eq, rhs_eq]
      have harith : inputs.length - MAX_CACHE_SIZE + 1
          = inputs.length + 1 - MAX_CACHE_SIZE := by
        rw [hM] at *
        omega
      rw [harith]
    · have hcond : ¬ MAX_CACHE_SIZE ≤ (runCalls prim [] inputs).length := by
        rw [hlen, hM] at *
        omega
      have h1 : inputs.length - MAX_CACHE_SIZE = 0 := by
        rw [hM] at *
        omega
      have h2 : (inputs ++ [i]).length - MAX_CACHE_SIZE = 0 := by
        rw [hli, hM] at *
        omega
      rw [if_neg hcond, List.map_append, hkeys, h1, h2, List.drop_zero,
        List.drop_zero, List.map_append]
      rfl

/-- C3: the cell cache evicts in FIFO insertion order. (1) Inserting a
genuinely new key while the capacity-`MAX_CACHE_SIZE` cache is full
removes exactly the oldest surviving entry (the head of the insertion
ordered list), keeping every other entry in order and appending the new
one. (2) A cache hit returns the stored value and leaves the cache
completely unchanged, so a `get` never changes any entry's eviction
priority. (3) After resolving `MAX_CACHE_SIZE + 1` inputs with pairwise
distinct quantized keys starting from the empty cache, the first input's
key is no longer in the cache, so resolving it again is a miss that hits
the primitive afresh. -/
theorem cellCache_fifo_eviction :
    (∀ (prim : H3Primitive) (cache : H3Cache) (lat lng : ℚ)
       (resolution : ℕ) (r : H3CellInfo),
       cache.length = MAX_CACHE_SIZE →
       cacheGet cache (cacheKeyOf lat lng resolution) = none →
       computeCellInfo prim lat lng resolution = some r →
       getH3CellInfo prim cache lat lng resolution
         = (Except.ok r, cache.tail ++ [(cacheKeyOf lat lng resolution, r)]))
    ∧ (∀ (prim : H3Primitive) (cache : H3Cache) (lat lng : ℚ)
       (resolution : ℕ) (v : H3CellInfo),
       cacheGet cache (cacheKeyOf lat lng resolution) = some v →
       getH3CellInfo prim cache lat lng resolution = (Except.ok v, cache))
    ∧ (∀ (prim : H3Primitive) (inputs : List (ℚ × ℚ × ℕ)) (i₀ : ℚ × ℚ × ℕ),
       inputs.length = MAX_CACHE_SIZE + 1 →
       (inputs.map keyOfInput).Nodup →
       (∀ i ∈ inputs, (computeCellInfo prim i.1 i.2.1 i.2.2).isSome) →
       inputs.head? = some i₀ →
       cacheGet (runCalls prim [] inputs) (keyOfInput i₀) = none) := by
  refine ⟨?_, ?_, ?_⟩
  · intro prim cache lat lng resolution r hfull hmiss hcomp
    simp only [getH3CellInfo, hmiss, hcomp]
    rw [if_pos (le_of_eq hfull.symm)]
  · intro prim cache lat lng resolution v hhit
    simp only [getH3CellInfo, hhit]
  · intro prim inputs i₀ hlen hnd hok hhead
    rw [cacheGet_eq_none_iff, runCalls_keys prim inputs hnd hok]
    cases inputs with
    | nil => simp at hhead
    | cons j rest =>
      have hj : j = i₀ := by simpa using hhead
      subst hj
      have hM : MAX_CACHE_SIZE = 100 := rfl
      have hdrop : (j :: rest).length - MAX_CACHE_SIZE = 1 := by
        rw [hM]
        rw [hM] at hlen
        omega
      rw [hdrop, List.map_cons, List.drop_one, List.tail_cons]
      exact (List.nodup_cons.mp (by simpa using hnd)).1

theorem cacheW_miss : cacheGet cacheW (cacheKeyOf 0 0 5) = none := by
  rw [cacheGet_eq_none_iff]
  intro hmem
  simp only [cacheW, List.map_map, List.mem_map, Function.comp] at hmem
  obtain ⟨n, _, hn⟩ := hmem
  have h5 : (1 : ℕ) = 5 := congrArg (fun p : CacheKey => p.2.2) hn
  simp at h5

theorem inputsW_keys_nodup : (inputsW.map keyOfInput).Nodup := by
  simp only [inputsW, List.map_map]
  refine List.Nodup.map ?_ (List.nodup_range _)
  intro a b hab
  simpa using congrArg (fun p : CacheKey => p.2.2) hab

/-- Witness for C3: (1) inserting a fresh key into the full `cacheW`
evicts exactly its head; (2) a hit on a singleton cache returns the
entry and leaves the cache as is; (3) after the 101 distinct insertions
of `inputsW` from the empty cache, the first key is gone. -/
theorem cellCache_fifo_eviction_witness :
    getH3CellInfo primTotal cacheW 0 0 5
      = (Except.ok cellA, cacheW.tail ++ [(cacheKeyOf 0 0 5, cellA)])
    ∧ getH3CellInfo primTotal [(cacheKeyOf 0 0 0, cellA)] 0 0 0
      = (Except.ok cellA, [(cacheKeyOf 0 0 0, cellA)])
    ∧ cacheGet (runCalls primTotal [] inputsW)
        (keyOfInput ((0 : ℚ), (0 : ℚ), (0 : ℕ))) = none :=
  ⟨cellCache_fifo_eviction.1 primTotal cacheW 0 0 5 cellA
     (by simp only [cacheW, List.length_map, List.length_range]) cacheW_miss rfl,
   cellCache_fifo_eviction.2.1 primTotal [(cacheKeyOf 0 0 0, cellA)]
     0 0 0 cellA (by simp [cacheGet]),
   cellCache_fifo_eviction.2.2 primTotal inputsW ((0 : ℚ), (0 : ℚ), (0 : ℕ))
     (by simp only [inputsW, List.length_map, List.length_range])
     inputsW_keys_nodup (fun i _ => rfl) rfl⟩

theorem sampleLoop_zero_step (upper x : ℚ) (hx : x ≤ upper) :
    ∀ fuel, sampleLoop upper 0 fuel x = none := by
  intro fuel
  induction fuel with
  | zero => rfl
  | succ n ih => simp [sampleLoop, hx, add_zero, ih]

theorem sampleLoop_exit (upper step x : ℚ) (h : upper < x)
    (fuel : ℕ) (hf : 1 ≤ fuel) :
    sampleLoop upper step fuel x = some [] := by
  cases fuel with
  | zero => exact absurd hf (by norm_num)
  | succ n => simp [sampleLoop, not_le.mpr h]

theorem sampleLoop_terminates (upper step : ℚ) (_hstep : 0 < step) :
    ∀ (fuel : ℕ) (x : ℚ), upper < x + fuel * step →
      ∃ l, sampleLoop upper step (fuel + 1) x = some l := by
  intro fuel
  induction fuel with
  | zero =>
    intro x h
    rw [Nat.cast_zero, zero_mul, add_zero] at h
    exact ⟨[], by simp [sampleLoop, not_le.mpr h]⟩
  | succ n ih =>
    intro x h
    by_cases hx : x ≤ upper
    · obtain ⟨l, hl⟩ := ih (x + step) (by push_cast at h ⊢; linarith)
      refine ⟨x :: l, ?_⟩
      have hunf : sampleLoop upper step (n + 1 + 1) x
          = if x ≤ upper
            then (sampleLoop upper step (n + 1) (x + step)).map
              (fun t => x :: t)
            else some [] := rfl
      rw [hunf, if_pos hx, hl]
      rfl
    · exact ⟨[], by simp [sampleLoop, hx]⟩

theorem sampleLoop_ne_nil (upper step x : ℚ) (hx : x ≤ upper)
    (fuel : ℕ) (l : List ℚ)
    (h : sampleLoop upper step fuel x = some l) : l.isEmpty = false := by
  cases fuel with
  | zero => exact Option.noConfusion h
  | succ n =>
    simp only [sampleLoop, if_pos hx, Option.map_eq_some'] at h
    obtain ⟨a, _, rfl⟩ := h
    rfl

theorem stepsFor_pos (resolution : ℕ) : 0 < stepsFor resolution := by
  have h10 : 10 ≤ stepsFor resolution :=
    le_min (by norm_num) (le_max_left _ _)
  omega

/-- C2: termination behavior of `getH3CellsInBounds`. (1) For bounds with
`south < north` and `west < east` both loops advance by positive steps
and the call terminates with a result. (2) For `north < south` the outer
loop guard fails immediately and the call returns the empty list (for any
positive fuel). (3) For degenerate bounds admitted by the spec's
`ViewportBounds` invariant — `south ≤ north`, `west ≤ east`, with
`north = south` or `east = west` — the corresponding step size is zero,
the guard never fails, and the call diverges: no amount of fuel produces
a result. -/
theorem getH3CellsInBounds_termination_trichotomy
    (prim : H3Primitive) (b : Bounds) (resolution : ℕ) :
    (b.south < b.north → b.west < b.east →
      ∃ fuel l, getH3CellsInBounds prim b resolution fuel = some l)
    ∧ (b.north < b.south → ∀ fuel, 1 ≤ fuel →
      getH3CellsInBounds prim b resolution fuel = some [])
    ∧ (b.south ≤ b.north → b.west ≤ b.east →
      (b.north = b.south ∨ b.east = b.west) →
      ∀ fuel, getH3CellsInBounds prim b resolution fuel = none) := by
  have hs0 : (0 : ℚ) < (stepsFor resolution : ℚ) := by
    exact_mod_cast stepsFor_pos resolution
  refine ⟨?_, ?_, ?_⟩
  · intro hsn hwe
    have hlat : (0 : ℚ) < (b.north - b.south) / (stepsFor resolution : ℚ) :=
      div_pos (sub_pos.mpr hsn) hs0
    have hlng : (0 : ℚ) < (b.east - b.west) / (stepsFor resolution : ℚ) :=
      div_pos (sub_pos.mpr hwe) hs0
    have hmul_lat : (stepsFor resolution : ℚ)
        * ((b.north - b.south) / (stepsFor resolution : ℚ))
        = b.north - b.south :=
      mul_div_cancel₀ _ (ne_of_gt hs0)
    have hmul_lng : (stepsFor resolution : ℚ)
        * ((b.east - b.west) / (stepsFor resolution : ℚ))
        = b.east - b.west :=
      mul_div_cancel₀ _ (ne_of_gt hs0)
    obtain ⟨lats, hlats⟩ :=
      sampleLoop_terminates b.north
        ((b.north - b.south) / (stepsFor resolution : ℚ)) hlat
        (stepsFor resolution + 1) b.south
        (by push_cast; nlinarith [hlat, hmul_lat])
    obtain ⟨lngs, hlngs⟩ :=
      sampleLoop_terminates b.east
        ((b.east - b.west) / (stepsFor resolution : ℚ)) hlng
        (stepsFor resolution + 1) b.west
        (by push_cast; nlinarith [hlng, hmul_lng])
    refine ⟨stepsFor resolution + 1 + 1, ?_⟩
    cases he : lats.isEmpty
    · exact ⟨(processSamples prim resolution
          (lats.flatMap (fun la => lngs.map (fun ln => (la, ln)))) []).1,
        by simp [getH3CellsInBounds, hlats, hlngs, he]⟩
    · exact ⟨[], by simp [getH3CellsInBounds, hlats, he]⟩
  · intro hns fuel hfuel
    have h1 := sampleLoop_exit b.north ((b.north - b.south) / (stepsFor resolution : ℚ))
      b.south hns fuel hfuel
    simp only [getH3CellsInBounds, h1, List.isEmpty_nil, if_true]
  · intro hsn hwe hdeg fuel
    rcases hdeg with heq | heq
    · have hstep0 : (b.north - b.south) / (stepsFor resolution : ℚ) = 0 := by
        rw [heq, sub_self, zero_div]
      have h1 := sampleLoop_zero_step b.north b.south hsn fuel
      simp only [getH3CellsInBounds, hstep0, h1]
    · cases hl : sampleLoop b.north
          ((b.north - b.south) / (stepsFor resolution : ℚ)) fuel b.south with
      | none => simp only [getH3CellsInBounds, hl]
      | some lats =>
        have hne := sampleLoop_ne_nil b.north _ b.south hsn fuel lats hl
        have hstep0 : (b.east - b.west) / (stepsFor resolution : ℚ) = 0 := by
          rw [heq, sub_self, zero_div]
        have h2 := sampleLoop_zero_step b.east b.west (le_of_eq heq.symm) fuel
        simp only [getH3CellsInBounds, hl, hne, hstep0, h2,
          Bool.false_eq_true, if_false]

/-- Witness for C2: with unit bounds the call terminates; with inverted
bounds it returns the empty list at once; with fully degenerate bounds
(all four coordinates equal) it diverges for the sample fuel 7. -/
theorem getH3CellsInBounds_termination_trichotomy_witness :
    (∃ fuel l, getH3CellsInBounds primTotal ⟨1, 0, 1, 0⟩ 0 fuel = some l)
    ∧ getH3CellsInBounds primTotal ⟨0, 1, 1, 0⟩ 0 5 = some []
    ∧ getH3CellsInBounds primTotal ⟨0, 0, 0, 0⟩ 0 7 = none :=
  ⟨(getH3CellsInBounds_termination_trichotomy primTotal ⟨1, 0, 1, 0⟩ 0).1
     (by norm_num) (by norm_num),
   (getH3CellsInBounds_termination_trichotomy primTotal ⟨0, 1, 1, 0⟩ 0).2.1
     (by norm_num) 5 (by norm_num),
   (getH3CellsInBounds_termination_trichotomy primTotal ⟨0, 0, 0, 0⟩ 0).2.2
     (by norm_num) (by norm_num) (Or.inl rfl) 7⟩

/-- C4: for every bounds with `north < south`, every resolution and every
instance of the primitive, `getH3CellsInBounds` returns the empty list
immediately: the outer loop guard `south ≤ north` fails before the first
iteration, the loop body is never entered, no sample is processed (the
result is the same for every primitive, so the primitive is never
consulted), and the returned list is empty. -/
theorem getH3CellsInBounds_north_lt_south_empty
    (prim : H3Primitive) (b : Bounds) (resolution : ℕ) (fuel : ℕ)
    (hinv : b.north < b.south) (hfuel : 1 ≤ fuel) :
    getH3CellsInBounds prim b resolution fuel = some [] := by
  have h1 := sampleLoop_exit b.north
    ((b.north - b.south) / (stepsFor resolution : ℚ)) b.south hinv fuel hfuel
  simp only [getH3CellsInBounds, h1, List.isEmpty_nil, if_true]

/-- Witness for C4: inverted unit bounds produce the empty list. -/
theorem getH3CellsInBounds_north_lt_south_empty_witness :
    getH3CellsInBounds primFail ⟨0, 1, 0, 1⟩ 9 3 = some [] :=
  getH3CellsInBounds_north_lt_south_empty primFail ⟨0, 1, 0, 1⟩ 9 3
    (by norm_num) (by norm_num)

/-- Freshness and uniqueness of the enumerator loop body: relative to any
`seen` set, the emitted records have pairwise distinct identifiers not in
`seen`, and the identifiers passed to `cellToBoundary` are pairwise
distinct and not in `seen` (so a boundary is computed at most once per
identifier). -/
theorem processSamples_fresh (prim : H3Primitive) (resolution : ℕ) :
    ∀ (samples : List (ℚ × ℚ)) (seen : List String),
      ((processSamples prim resolution samples seen).1.map
          (fun c => c.h3Index)).Nodup
      ∧ (∀ i ∈ (processSamples prim resolution samples seen).1.map
            (fun c => c.h3Index), i ∉ seen)
      ∧ (processSamples prim resolution samples seen).2.Nodup
      ∧ (∀ i ∈ (processSamples prim resolution samples seen).2, i ∉ seen) := by
  intro samples
  induction samples with
  | nil => intro seen; simp [processSamples]
  | cons s rest ih =>
    intro seen
    simp only [processSamples]
    cases hlc : prim.latLngToCell s.1 s.2 resolution with
    | none => exact ih seen
    | some idx =>
      by_cases hmem : idx ∈ seen
      · simp only [if_pos hmem]
        exact ih seen
      · simp only [if_neg hmem]
        obtain ⟨ih1, ih2, ih3, ih4⟩ := ih (idx :: seen)
        have htrace : (idx :: (processSamples prim resolution rest
              (idx :: seen)).2).Nodup
            ∧ ∀ i ∈ idx :: (processSamples prim resolution rest
              (idx :: seen)).2, i ∉ seen := by
          refine ⟨List.nodup_cons.mpr ⟨?_, ih3⟩, ?_⟩
          · intro hidx
            exact ih4 idx hidx (List.mem_cons_self idx seen)
          · intro i hi hseen
            rcases List.mem_cons.mp hi with h | h
            · exact hmem (h ▸ hseen)
            · exact ih4 i h (List.mem_cons_of_mem idx hseen)
        have hout_weak : ∀ i ∈ (processSamples prim resolution rest
            (idx :: seen)).1.map (fun c => c.h3Index), i ∉ seen :=
          fun i hi hseen => ih2 i hi (List.mem_cons_of_mem idx hseen)
        cases hb : prim.cellToBoundary idx with
        | none => exact ⟨ih1, hout_weak, htrace.1, htrace.2⟩
        | some bd =>
          cases hres : prim.getResolution idx with
          | none => exact ⟨ih1, hout_weak, htrace.1, htrace.2⟩
          | some ar =>
            refine ⟨?_, ?_, htrace.1, htrace.2⟩
            · simp only [List.map_cons]
              refine List.nodup_cons.mpr ⟨?_, ih1⟩
              intro hidx
              exact ih2 idx hidx (List.mem_cons_self idx seen)
            · simp only [List.map_cons]
              intro i hi hseen
              rcases List.mem_cons.mp hi with h | h
              · exact hmem (h ▸ hseen)
              · exact ih2 i h (List.mem_cons_of_mem idx hseen)

/-- C7: fault tolerance of the enumerator. (1) If the primitive rejects
(throws on) one sample point of the sequence, that single sample is
skipped — the `catch` branch — and the result over the whole sequence
equals the result over the sequence with the rejected sample removed:
enumeration continues and returns exactly the records obtained from the
non-rejected samples. (2) Whether `getH3CellsInBounds` succeeds does not
depend on the primitive at all (its loop structure alone decides it), so
a rejected sample can never abort the whole call. -/
theorem processSamples_skips_rejected :
    (∀ (prim : H3Primitive) (resolution : ℕ) (pre post : List (ℚ × ℚ))
       (bad : ℚ × ℚ) (seen : List String),
       prim.latLngToCell bad.1 bad.2 resolution = none →
       processSamples prim resolution (pre ++ bad :: post) seen
         = processSamples prim resolution (pre ++ post) seen)
    ∧ (∀ (prim prim' : H3Primitive) (b : Bounds) (resolution fuel : ℕ),
       (getH3CellsInBounds prim b resolution fuel).isSome
         = (getH3CellsInBounds prim' b resolution fuel).isSome) := by
  constructor
  · intro prim resolution pre post bad seen hrej
    induction pre generalizing seen with
    | nil => simp only [List.nil_append, processSamples, hrej]
    | cons s pre ih =>
      simp only [List.cons_append, processSamples]
      cases hlc : prim.latLngToCell s.1 s.2 resolution with
      | none => exact ih seen
      | some idx =>
        by_cases hmem : idx ∈ seen
        · simp only [if_pos hmem]
          exact ih seen
        · simp only [if_neg hmem, List.append_eq]
          rw [ih (idx :: seen)]
  · intro prim prim' b resolution fuel
    simp only [getH3CellsInBounds]
    cases hl : sampleLoop b.north
        ((b.north - b.south) / (stepsFor resolution : ℚ)) fuel b.south with
    | none => rfl
    | some lats =>
      cases he : lats.isEmpty
      · simp only [he, Bool.false_eq_true, if_false]
        cases hg : sampleLoop b.east
            ((b.east - b.west) / (stepsFor resolution : ℚ)) fuel b.west with
        | none => rfl
        | some lngs => rfl
      · simp only [he, if_true]

/-- Witness for C7: with the always-throwing primitive, dropping the
rejected middle sample leaves the result unchanged, and success of the
enumerator matches that under the always-succeeding primitive. -/
theorem processSamples_skips_rejected_witness :
    processSamples primFail 5
        ([((0 : ℚ), (0 : ℚ))] ++ ((1 : ℚ), (1 : ℚ)) :: [((2 : ℚ), (2 : ℚ))]) []
      = processSamples primFail 5 ([((0 : ℚ), (0 : ℚ))] ++ [((2 : ℚ), (2 : ℚ))]) []
    ∧ (getH3CellsInBounds primFail ⟨0, 1, 1, 0⟩ 0 5).isSome
      = (getH3CellsInBounds primTotal ⟨0, 1, 1, 0⟩ 0 5).isSome :=
  ⟨processSamples_skips_rejected.1 primFail 5 [((0 : ℚ), (0 : ℚ))]
     [((2 : ℚ), (2 : ℚ))] ((1 : ℚ), (1 : ℚ)) [] rfl,
   processSamples_skips_rejected.2 primFail primTotal ⟨0, 1, 1, 0⟩ 0 5⟩

theorem processSamples_firstWins_aux (prim : H3Primitive) (resolution : ℕ)
    (hb : ∀ idx, (prim.cellToBoundary idx).isSome)
    (hr : ∀ idx, (prim.getResolution idx).isSome) :
    ∀ (samples : List (ℚ × ℚ)) (seen acc : List String),
      (∀ i, i ∈ seen ↔ i ∈ acc) →
      acc ++ (processSamples prim resolution samples seen).1.map
          (fun c => c.h3Index)
        = (samples.filterMap
            (fun p => prim.latLngToCell p.1 p.2 resolution)).foldl
            (fun a idx => if idx ∈ a then a else a ++ [idx]) acc := by
  intro samples
  induction samples with
  | nil =>
    intro seen acc hiff
    simp [processSamples]
  | cons s rest ih =>
    intro seen acc hiff
    simp only [processSamples, List.filterMap_cons]
    cases hlc : prim.latLngToCell s.1 s.2 resolution with
    | none => exact ih seen acc hiff
    | some idx =>
      simp only [List.foldl_cons]
      by_cases hmem : idx ∈ seen
      · have hacc : idx ∈ acc := (hiff idx).mp hmem
        simp only [if_pos hmem, if_pos hacc]
        exact ih seen acc hiff
      · have hacc : idx ∉ acc := fun h => hmem ((hiff idx).mpr h)
        simp only [if_neg hmem, if_neg hacc]
        obtain ⟨bd, hbd⟩ := Option.isSome_iff_exists.mp (hb idx)
        obtain ⟨ar, har⟩ := Option.isSome_iff_exists.mp (hr idx)
        simp only [hbd, har, List.map_cons]
        have hsplit : (acc ++ [idx])
              ++ (processSamples prim resolution rest (idx :: seen)).1.map
                (fun c => c.h3Index)
            = acc ++ idx :: (processSamples prim resolution rest
                (idx :: seen)).1.map (fun c => c.h3Index) := by
          simp
        rw [← hsplit]
        refine ih (idx :: seen) (acc ++ [idx]) ?_
        intro i
        simp only [List.mem_cons, List.mem_append, List.mem_singleton, hiff i]
        tauto

/-- C6: deduplication of the enumerator. (1) Any list returned by
`getH3CellsInBounds` has pairwise distinct cell identifiers. (2) The
identifiers on which `cellToBoundary` is invoked during enumeration are
pairwise distinct: a sample resolving to an already-seen identifier is
discarded without recomputing the boundary. (3) When the auxiliary
primitive calls succeed (the normal path), the output identifiers are
exactly the first-winner deduplication of the identifier stream produced
by the samples in order: the first sample producing an identifier
determines that cell's position in the output. -/
theorem enumerateViewportCells_dedup :
    (∀ (prim : H3Primitive) (b : Bounds) (resolution fuel : ℕ)
       (l : List H3CellInfo),
       getH3CellsInBounds prim b resolution fuel = some l →
       (l.map (fun c => c.h3Index)).Nodup)
    ∧ (∀ (prim : H3Primitive) (resolution : ℕ) (samples : List (ℚ × ℚ)),
       (processSamples prim resolution samples []).2.Nodup)
    ∧ (∀ (prim : H3Primitive) (resolution : ℕ) (samples : List (ℚ × ℚ)),
       (∀ idx, (prim.cellToBoundary idx).isSome) →
       (∀ idx, (prim.getResolution idx).isSome) →
       (processSamples prim resolution samples []).1.map (fun c => c.h3Index)
         = firstWins (samples.filterMap
             (fun p => prim.latLngToCell p.1 p.2 resolution))) := by
  refine ⟨?_, ?_, ?_⟩
  · intro prim b resolution fuel l h
    simp only [getH3CellsInBounds] at h
    split at h
    · exact Option.noConfusion h
    · split at h
      · cases h
        simp
      · split at h
        · exact Option.noConfusion h
        · cases h
          exact (processSamples_fresh prim resolution _ []).1
  · intro prim resolution samples
    exact (processSamples_fresh prim resolution samples []).2.2.1
  · intro prim resolution samples hb hr
    have := processSamples_firstWins_aux prim resolution hb hr samples [] []
      (by intro i; simp)
    simpa [firstWins] using this

/-- Witness for C6: the inverted-bounds call returns a duplicate-free
(empty) list; a concrete two-sample run under `primTotal` has a
duplicate-free boundary-call trace; and its output identifiers equal the
first-winner deduplication of its identifier stream. -/
theorem enumerateViewportCells_dedup_witness :
    (([] : List H3CellInfo).map (fun c => c.h3Index)).Nodup
    ∧ (processSamples primTotal 0
        [((0 : ℚ), (0 : ℚ)), ((1 : ℚ), (0 : ℚ))] []).2.Nodup
    ∧ (processSamples primTotal 0
        [((0 : ℚ), (0 : ℚ)), ((1 : ℚ), (0 : ℚ))] []).1.map
          (fun c => c.h3Index)
      = firstWins ([((0 : ℚ), (0 : ℚ)), ((1 : ℚ), (0 : ℚ))].filterMap
          (fun p => primTotal.latLngToCell p.1 p.2 0)) :=
  ⟨enumerateViewportCells_dedup.1 primTotal ⟨0, 1, 1, 0⟩ 0 5 []
     (by
       have h1 := sampleLoop_exit (0 : ℚ)
         (((0 : ℚ) - (1 : ℚ)) / (stepsFor 0 : ℚ)) (1 : ℚ)
         (by norm_num) 5 (by norm_num)
       simp only [getH3CellsInBounds, h1, List.isEmpty_nil, if_true]),
   enumerateViewportCells_dedup.2.1 primTotal 0
     [((0 : ℚ), (0 : ℚ)), ((1 : ℚ), (0 : ℚ))],
   enumerateViewportCells_dedup.2.2 primTotal 0
     [((0 : ℚ), (0 : ℚ)), ((1 : ℚ), (0 : ℚ))]
     (fun _ => rfl) (fun _ => rfl)⟩

/-- Exact value list of a loop header with positive step: when
`x + n·step` still satisfies the guard but `x + (n+1)·step` does not, the
loop performs exactly `n + 1` iterations and visits the arithmetic grid
`x, x + step, …, x + n·step`. -/
theorem sampleLoop_eq_range (upper step : ℚ) (hstep : 0 < step) :
    ∀ (n : ℕ) (x : ℚ), x + n * step ≤ upper → upper < x + (n + 1) * step →
      ∀ fuel, n + 2 ≤ fuel →
      sampleLoop upper step fuel x
        = some ((List.range (n + 1)).map (fun (k : ℕ) => x + (k : ℚ) * step)) := by
  intro n
  induction n with
  | zero =>
    intro x h1 h2 fuel hf
    obtain ⟨m, rfl⟩ : ∃ m, fuel = m + 2 := ⟨fuel - 2, by omega⟩
    rw [Nat.cast_zero, zero_mul, add_zero] at h1
    have e1 : sampleLoop upper step (m + 1 + 1) x
        = if x ≤ upper
          then (sampleLoop upper step (m + 1) (x + step)).map
            (fun t => x :: t)
          else some [] := rfl
    rw [e1, if_pos h1,
      sampleLoop_exit upper step (x + step)
        (by push_cast at h2; linarith) (m + 1) (by omega)]
    simp [List.range_succ]
  | succ n ih =>
    intro x h1 h2 fuel hf
    obtain ⟨m, rfl⟩ : ∃ m, fuel = m + 1 := ⟨fuel - 1, by omega⟩
    have hx : x ≤ upper := by
      have hnn : (0 : ℚ) ≤ ((n : ℚ) + 1) * step := by positivity
      push_cast at h1
      linarith
    have e1 : sampleLoop upper step (m + 1) x
        = if x ≤ upper
          then (sampleLoop upper step m (x + step)).map (fun t => x :: t)
          else some [] := rfl
    rw [e1, if_pos hx,
      ih (x + step) (by push_cast at h1 ⊢; linarith)
        (by push_cast at h2 ⊢; linarith) m (by omega)]
    rw [Option.map_some']
    congr 1
    conv_rhs => rw [List.range_succ_eq_map]
    rw [List.map_cons, List.map_map]
    congr 1
    · norm_num
    · refine List.map_congr_left ?_
      intro k _
      simp only [Function.comp_apply]
      push_cast
      ring

/-- C10: the sampling structure of `getH3CellsInBounds` over
non-degenerate bounds. The step count is exactly
`clamp(2^resolution, 10, 50)`; the latitude loop visits exactly
`south, south + latStep, …, south + steps·latStep` with
`latStep = (north − south)/steps`, whose last point is `north` (inclusive
walk), and similarly for longitude; and the call returns exactly the
loop body run over that full grid (outer latitude, inner longitude),
resolving each sample against the primitive — the cache state plays no
part in the computation, which takes no cache argument at all. -/
theorem getH3CellsInBounds_sampling_grid
    (prim : H3Primitive) (b : Bounds) (resolution : ℕ)
    (hsn : b.south < b.north) (hwe : b.west < b.east) :
    stepsFor resolution = min 50 (max 10 (2 ^ resolution))
    ∧ sampleLoop b.north ((b.north - b.south) / (stepsFor resolution : ℚ))
        (stepsFor resolution + 2) b.south
      = some ((List.range (stepsFor resolution + 1)).map
          (fun (k : ℕ) => b.south
            + (k : ℚ) * ((b.north - b.south) / (stepsFor resolution : ℚ))))
    ∧ sampleLoop b.east ((b.east - b.west) / (stepsFor resolution : ℚ))
        (stepsFor resolution + 2) b.west
      = some ((List.range (stepsFor resolution + 1)).map
          (fun (k : ℕ) => b.west
            + (k : ℚ) * ((b.east - b.west) / (stepsFor resolution : ℚ))))
    ∧ b.south + (stepsFor resolution : ℚ)
        * ((b.north - b.south) / (stepsFor resolution : ℚ)) = b.north
    ∧ b.west + (stepsFor resolution : ℚ)
        * ((b.east - b.west) / (stepsFor resolution : ℚ)) = b.east
    ∧ getH3CellsInBounds prim b resolution (stepsFor resolution + 2)
      = some ((processSamples prim resolution
          (((List.range (stepsFor resolution + 1)).map
            (fun (k : ℕ) => b.south
              + (k : ℚ) * ((b.north - b.south) / (stepsFor resolution : ℚ)))).flatMap
            (fun la => ((List.range (stepsFor resolution + 1)).map
              (fun (k : ℕ) => b.west
                + (k : ℚ) * ((b.east - b.west) / (stepsFor resolution : ℚ)))).map
              (fun ln => (la, ln)))) []).1) := by
  have hs0 : (0 : ℚ) < (stepsFor resolution : ℚ) := by
    exact_mod_cast stepsFor_pos resolution
  have hlat : (0 : ℚ) < (b.north - b.south) / (stepsFor resolution : ℚ) :=
    div_pos (sub_pos.mpr hsn) hs0
  have hlng : (0 : ℚ) < (b.east - b.west) / (stepsFor resolution : ℚ) :=
    div_pos (sub_pos.mpr hwe) hs0
  have hmul_lat : (stepsFor resolution : ℚ)
      * ((b.north - b.south) / (stepsFor resolution : ℚ))
      = b.north - b.south :=
    mul_div_cancel₀ _ (ne_of_gt hs0)
  have hmul_lng : (stepsFor resolution : ℚ)
      * ((b.east - b.west) / (stepsFor resolution : ℚ))
      = b.east - b.west :=
    mul_div_cancel₀ _ (ne_of_gt hs0)
  have hlats := sampleLoop_eq_range b.north
    ((b.north - b.south) / (stepsFor resolution : ℚ)) hlat
    (stepsFor resolution) b.south
    (by rw [hmul_lat]; linarith)
    (by nlinarith [hlat, hmul_lat])
    (stepsFor resolution + 2) (by omega)
  have hlngs := sampleLoop_eq_range b.east
    ((b.east - b.west) / (stepsFor resolution : ℚ)) hlng
    (stepsFor resolution) b.west
    (by rw [hmul_lng]; linarith)
    (by nlinarith [hlng, hmul_lng])
    (stepsFor resolution + 2) (by omega)
  refine ⟨rfl, hlats, hlngs, by rw [hmul_lat]; ring, by rw [hmul_lng]; ring, ?_⟩
  have hne : (((List.range (stepsFor resolution + 1)).map
      (fun (k : ℕ) => b.south
        + (k : ℚ) * ((b.north - b.south) / (stepsFor resolution : ℚ)))).isEmpty)
      = false := by
    rw [List.range_succ_eq_map, List.map_cons]
    rfl
  simp only [getH3CellsInBounds, hlats, hlngs, hne, Bool.false_eq_true,
    if_false]

/-- Witness for C10: over the unit bounds (north 1, south 0, east 1,
west 0) at resolution 0 the step count is 10, the inclusive walk ends
exactly at the northern/eastern edge, and the enumerator output is the
loop body over the full 11 × 11 sample grid. -/
theorem getH3CellsInBounds_sampling_grid_witness :
    stepsFor 0 = min 50 (max 10 (2 ^ 0))
    ∧ (0 : ℚ) + (stepsFor 0 : ℚ)
        * (((1 : ℚ) - (0 : ℚ)) / (stepsFor 0 : ℚ)) = (1 : ℚ)
    ∧ getH3CellsInBounds primTotal ⟨1, 0, 1, 0⟩ 0 (stepsFor 0 + 2)
      = some ((processSamples primTotal 0
          (((List.range (stepsFor 0 + 1)).map
            (fun (k : ℕ) => (0 : ℚ)
              + (k : ℚ) * (((1 : ℚ) - (0 : ℚ)) / (stepsFor 0 : ℚ)))).flatMap
            (fun la => ((List.range (stepsFor 0 + 1)).map
              (fun (k : ℕ) => (0 : ℚ)
                + (k : ℚ) * (((1 : ℚ) - (0 : ℚ)) / (stepsFor 0 : ℚ)))).map
              (fun ln => (la, ln)))) []).1) := by
  have h := getH3CellsInBounds_sampling_grid primTotal ⟨1, 0, 1, 0⟩ 0
    (by norm_num) (by norm_num)
  exact ⟨h.1, h.2.2.2.1, h.2.2.2.2.2⟩
